import Mathlib

/-!
Verification development for the sxm_mobility traffic-assignment core.

This file embeds, in Lean 4, the data model and the operations of the
repository's core modules:

* `assignment/msa.py` — `update_edge_times`, `all_or_nothing_assignment`,
  `msa_traffic_assignment`;
* `assignment/bpr.py` — `bpr_time` (this file is absent from the source tree;
  the definition below is modelled from the specification);
* `demand/od_generation.py` — `generate_od_weighted_total`;
* `network/attributes.py` — `add_freeflow_time_and_capacity`;
* `scenarios/catalog.py` — `propose_connector_near_edge`, `apply_connector`.

Modelling conventions:

* Python floats are modelled as elements of a linear ordered field
  (instantiated at `ℚ` for executable developments and at `ℝ` for the
  BPR cost function, whose exponentiation has a real exponent).
* A networkx `MultiDiGraph` is modelled as an explicit node list plus an
  edge list of `(u, v, key, data)` quadruples; the edge-attribute
  dictionary becomes a structure of `Option`-valued fields (a `none`
  field is a missing or unparsable attribute).
* `nx.shortest_path` is modelled as a path oracle `sp : ℕ → ℕ → Option (List ℕ)`
  together with the predicate `OracleOK` stating that the oracle returns a
  least-total-`time` path exactly when the endpoints are connected — the
  guarantee networkx's Dijkstra gives for positive weights.
  `nx.shortest_path_length` (used with the `t0` weight) is modelled by the
  executable `minDistBy`, the minimum weight over the finitely many
  cycle-free walks between the endpoints.
* Raising an exception is modelled with `Except Err`.
-/

inductive Err where
  | valueError
  | noPath
  | keyError
  deriving DecidableEq, Repr

/-- Edge-attribute dictionary of a networkx edge: every attribute the core
reads or writes, as optional values (`none` = attribute missing, or — for
numeric attributes parsed from OSM strings — unparsable). -/
structure EdgeData (α : Type) where
  t0 : Option α := none
  capacity : Option α := none
  flow : Option α := none
  time : Option α := none
  len : Option α := none
  travel_time : Option α := none
  maxspeed : Option α := none
  lanes : Option α := none
  highway : Option String := none
  roadName : Option String := none
  deriving DecidableEq, Repr

/-- A directed multigraph: explicit node set plus `(u, v, key, data)` edges. -/
structure Graph (α : Type) where
  nodes : List ℕ
  edges : List (ℕ × ℕ × ℕ × EdgeData α)
  deriving DecidableEq, Repr

namespace Graph

variable {α : Type} [LinearOrderedField α]

/-- The parallel edges from `u` to `v`, as `(key, data)` pairs in insertion
order — the model of the inner dictionary `G[u][v]`. -/
def edgesBetween (G : Graph α) (u v : ℕ) : List (ℕ × EdgeData α) :=
  G.edges.filterMap fun e =>
    if e.1 = u ∧ e.2.1 = v then some (e.2.2.1, e.2.2.2) else none

/-- Model of `G.has_edge(u, v)`. -/
def hasEdge (G : Graph α) (u v : ℕ) : Bool :=
  G.edges.any fun e => e.1 = u ∧ e.2.1 = v

/-- Distinct successors of a node, in first-appearance order. -/
def outNeighbors (G : Graph α) (n : ℕ) : List ℕ :=
  (G.edges.filterMap fun e => if e.1 = n then some e.2.1 else none).dedup

/-- Distinct predecessors of a node, in first-appearance order. -/
def inNeighbors (G : Graph α) (n : ℕ) : List ℕ :=
  (G.edges.filterMap fun e => if e.2.1 = n then some e.1 else none).dedup

end Graph

/-! ### Shortest paths

networkx routes a `MultiDiGraph` by giving a step `u → v` the minimum of the
requested weight attribute over the parallel edges (a missing attribute
counts as `1`).  `minDistBy` computes the least total weight over all
cycle-free walks, which for the non-negative weights used by the core is
exactly the quantity Dijkstra (`nx.shortest_path_length`) returns, and is
`none` exactly when no path exists. -/

namespace Graph

variable {α : Type} [LinearOrderedField α]

/-- The `"time"` edge weight used for routing: `data.get("time", 1.0)`. -/
def timeWeight (d : EdgeData α) : α := d.time.getD 1

/-- The `"t0"` edge weight used for detour estimates: `data.get("t0", 1)`. -/
def t0Weight (d : EdgeData α) : α := d.t0.getD 1

/-- Minimum of a weight over the parallel edges `u → v` (`none` if there is
no edge), the per-step weight networkx uses on a multigraph. -/
def minWeightBetween (G : Graph α) (w : EdgeData α → α) (u v : ℕ) : Option α :=
  ((G.edgesBetween u v).map fun p => w p.2).min?

/-- Total weight of a node path (sum of per-step minimum weights). -/
def pathWeight (G : Graph α) (w : EdgeData α → α) : List ℕ → α
  | [] => 0
  | [_] => 0
  | u :: v :: rest => (G.minWeightBetween w u v).getD 0 + pathWeight G w (v :: rest)

/-- Does `p` lead from `o` to `d` along edges of `G`? (model of the node
lists `nx.shortest_path` returns; `[o]` when `o = d`). -/
def isPathB (G : Graph α) (o d : ℕ) (p : List ℕ) : Bool :=
  (p.head? = some o ∧ p.getLast? = some d : Bool)
    && (p.zip p.tail).all fun s => G.hasEdge s.1 s.2

/-- All cycle-free walks from `a` to `b`, by fuelled depth-first search that
never revisits a node on the current branch. -/
def simplePathsAux (G : Graph α) : ℕ → ℕ → ℕ → List ℕ → List (List ℕ)
  | 0, a, b, _ => if a = b then [[a]] else []
  | fuel + 1, a, b, avoid =>
    if a = b then [[a]]
    else
      ((G.outNeighbors a).filter fun n => ¬ n ∈ avoid).flatMap fun n =>
        (simplePathsAux G fuel n b (a :: avoid)).map fun p => a :: p

/-- All cycle-free walks from `a` to `b` in `G`. -/
def simplePaths (G : Graph α) (a b : ℕ) : List (List ℕ) :=
  simplePathsAux G G.nodes.length a b []

/-- Least total weight of any path from `a` to `b` (`none` when disconnected):
the model of `nx.shortest_path_length(G, a, b, weight=...)`. -/
def minDistBy (G : Graph α) (w : EdgeData α → α) (a b : ℕ) : Option α :=
  ((G.simplePaths a b).map (G.pathWeight w)).min?

end Graph

/-- A path oracle modelling `nx.shortest_path(G, ·, ·, weight="time")`:
`sp o d = some p` means the call returns the node list `p`, `none` means it
raises `NetworkXNoPath`. -/
def Oracle : Type := ℕ → ℕ → Option (List ℕ)

/-- One endpoint pair of the `nx.shortest_path` contract: the oracle answers
with a least-total-`time` path when the endpoints are connected and `none`
(the `NetworkXNoPath` raise) exactly when they are not. -/
def oracleOKAt {α : Type} [LinearOrderedField α] (G : Graph α) (sp : Oracle)
    (o d : ℕ) : Bool :=
  match sp o d with
  | some p => G.isPathB o d p &&
      some (G.pathWeight Graph.timeWeight p) = G.minDistBy Graph.timeWeight o d
  | none => G.minDistBy Graph.timeWeight o d = none

/-- Contract of `nx.shortest_path` on graphs with positive `time` weights,
for every pair of nodes of the graph. -/
def OracleOK {α : Type} [LinearOrderedField α] (G : Graph α) (sp : Oracle) : Prop :=
  ∀ o ∈ G.nodes, ∀ d ∈ G.nodes, oracleOKAt G sp o d = true

instance {α : Type} [LinearOrderedField α] (G : Graph α) (sp : Oracle) :
    Decidable (OracleOK G sp) := by
  unfold OracleOK
  exact List.decidableBAll _ _

/-! ### `all_or_nothing_assignment` (assignment/msa.py) -/

/-- The auxiliary-flow dictionary `aux : (u, v, key) -> flow`, in insertion
order (model of the Python `defaultdict(float)` / `dict`). -/
def AuxMap (α : Type) : Type := List ((ℕ × ℕ × ℕ) × α)

/-- Dictionary lookup, `aux.get(k)`. -/
def auxFind {α : Type} : AuxMap α → (ℕ × ℕ × ℕ) → Option α
  | [], _ => none
  | (k0, v) :: rest, k => if k0 = k then some v else auxFind rest k

/-- Model of `aux[k] += dem` on a `defaultdict(float)`. -/
def auxAdd {α : Type} [LinearOrderedField α] :
    AuxMap α → (ℕ × ℕ × ℕ) → α → AuxMap α
  | [], k, dem => [(k, dem)]
  | (k0, v) :: rest, k, dem =>
    if k0 = k then (k0, v + dem) :: rest else (k0, v) :: auxAdd rest k dem

namespace Graph

variable {α : Type} [LinearOrderedField α]

/-- Model of `min(G[u][v], key=lambda k: float(G[u][v][k].get("time", 1.0)))`:
the first parallel-edge key of minimum `time` (Python's `min` keeps the
earliest minimum), `none` when there is no edge `u → v` (a `KeyError`). -/
def bestKey (G : Graph α) (u v : ℕ) : Option ℕ :=
  match G.edgesBetween u v with
  | [] => none
  | e :: es =>
    some (es.foldl
      (fun best p =>
        if timeWeight p.2 < best.2 then (p.1, timeWeight p.2) else best)
      (e.1, timeWeight e.2)).1

end Graph

/-- The inner loop of `all_or_nothing_assignment`: walk the consecutive node
pairs of `path` and add the demand onto the best parallel edge of each. -/
def assignPath {α : Type} [LinearOrderedField α] (G : Graph α) (dem : α) :
    AuxMap α → List ℕ → Except Err (AuxMap α)
  | aux, [] => .ok aux
  | aux, [_] => .ok aux
  | aux, u :: v :: rest =>
    match G.bestKey u v with
    | none => .error .keyError
    | some k => assignPath G dem (auxAdd aux (u, v, k) dem) (v :: rest)

/-- The loop body of `all_or_nothing_assignment` for one OD triple: skip it
when an endpoint is absent, otherwise route its demand along the
`nx.shortest_path` answer (whose `NetworkXNoPath` raise is `Err.noPath`). -/
def aonStep {α : Type} [LinearOrderedField α] (G : Graph α) (sp : Oracle)
    (aux : AuxMap α) (t : ℕ × ℕ × α) : Except Err (AuxMap α) :=
  if t.1 ∈ G.nodes ∧ t.2.1 ∈ G.nodes then
    match sp t.1 t.2.1 with
    | none => .error .noPath
    | some p => assignPath G t.2.2 aux p
  else .ok aux

/-- Model of `all_or_nothing_assignment(G, od)` from assignment/msa.py:
OD pairs with an endpoint absent from `G` are skipped; otherwise the demand
is routed along `sp o d` (`nx.shortest_path`), which raises — propagated
here as `Except.error Err.noPath` — when no path connects the endpoints. -/
def all_or_nothing_assignment {α : Type} [LinearOrderedField α]
    (G : Graph α) (sp : Oracle) (od : List (ℕ × ℕ × α)) :
    Except Err (AuxMap α) :=
  od.foldlM (aonStep G sp) []

/-! ### The BPR cost function (assignment/bpr.py)

The module `sxm_mobility/assignment/bpr.py` is imported by assignment/msa.py
but is not part of the source tree; only its caller is.  The definition
below is therefore modelled from the specification. -/

/-- Modelled from the spec: `bpr_time` of the absent module assignment/bpr.py.
Returns `t0 * (1 + alpha * (flow / capacity) ^ beta)` (a real exponent, as
the parameters are floats), guarding against `capacity == 0` by falling back
to a positive capacity floor instead of dividing by zero. -/
noncomputable def bpr_time (t0 flow capacity alpha beta : ℝ) : ℝ :=
  t0 * (1 + alpha * (flow / (if capacity = 0 then 1 else capacity)) ^ beta)

/-! ### `update_edge_times` and `msa_traffic_assignment` (assignment/msa.py) -/

/-- Model of `update_edge_times(G, alpha, beta)`: for every edge, read
`t0` (default `1.0`), `capacity` (default `1.0`) and `flow` (default `0.0`)
and write `time := bpr_time(...)`. -/
noncomputable def update_edge_times (G : Graph ℝ) (alpha beta : ℝ) : Graph ℝ :=
  { G with
    edges := G.edges.map fun e =>
      (e.1, e.2.1, e.2.2.1,
        { e.2.2.2 with
          time := some (bpr_time (e.2.2.2.t0.getD 1) (e.2.2.2.flow.getD 0)
            (e.2.2.2.capacity.getD 1) alpha beta) }) }

/-- The initialization loop of `msa_traffic_assignment`: for every edge,
`flow := float(data.get("flow", 0.0))` and
`time := float(data.get("t0", data.get("time", 1.0)))`. -/
noncomputable def msaInit (G : Graph ℝ) : Graph ℝ :=
  { G with
    edges := G.edges.map fun e =>
      (e.1, e.2.1, e.2.2.1,
        { e.2.2.2 with
          flow := some (e.2.2.2.flow.getD 0)
          time := some (e.2.2.2.t0.getD (e.2.2.2.time.getD 1)) }) }

/-- The flow-averaging loop of one MSA iteration: for every edge,
`flow := f + step * (a - f)` with `a = aux.get((u, v, key), 0.0)` and
`f = data.get("flow", 0.0)`. -/
noncomputable def msaFlowStep (G : Graph ℝ) (aux : AuxMap ℝ) (step : ℝ) : Graph ℝ :=
  { G with
    edges := G.edges.map fun e =>
      (e.1, e.2.1, e.2.2.1,
        { e.2.2.2 with
          flow := some (e.2.2.2.flow.getD 0 +
            step * ((auxFind aux (e.1, e.2.1, e.2.2.1)).getD 0 -
              e.2.2.2.flow.getD 0)) }) }

/-- One iteration of the MSA loop at counter `k`: recompute times from the
current flows, compute the all-or-nothing auxiliary flow on them, and
average the flows with step `1/(k+1)`. -/
noncomputable def msaIterStep (sp : Oracle) (od : List (ℕ × ℕ × ℝ))
    (alpha beta : ℝ) (H : Graph ℝ) (k : ℕ) : Except Err (Graph ℝ) := do
  let H1 := update_edge_times H alpha beta
  let aux ← all_or_nothing_assignment H1 sp od
  pure (msaFlowStep H1 aux (1 / ((k : ℝ) + 1)))

/-- Model of `msa_traffic_assignment(G, od, iters, alpha, beta)` from
assignment/msa.py: validate `iters`, initialize `flow`/`time`, run `iters`
MSA iterations (times, all-or-nothing auxiliary flow, flow averaging with
step `1/(k+1)`), and recompute times once more.  The path oracle `sp`
stands for `nx.shortest_path`; errors it induces propagate. -/
noncomputable def msa_traffic_assignment (G : Graph ℝ) (sp : Oracle)
    (od : List (ℕ × ℕ × ℝ)) (iters : ℤ) (alpha beta : ℝ) :
    Except Err (Graph ℝ) :=
  if iters < 0 then .error .valueError
  else do
    let Gfin ← (List.range iters.toNat).foldlM (msaIterStep sp od alpha beta)
      (msaInit G)
    pure (update_edge_times Gfin alpha beta)

/-! ### `generate_od_weighted_total` (demand/od_generation.py)

The weighted random sampling loop is abstracted by its outputs: `odPairs`
is the list of sampled `(origin, destination)` pairs (the rejection loop
guarantees `origin ≠ destination`) and `rawDemands` the list of raw draws
`rng.random() + 1e-6` (guaranteed positive), both of length `n_pairs`.
Those loop invariants reappear as hypotheses of the theorems about the
generator.  The remaining, deterministic part of the function — argument
validation and rescaling the raw demands to the requested total — is
embedded as written (`n_pairs` is a natural number here, so the
`n_pairs < 0` validation of the source is vacuous). -/

def generate_od_weighted_total (nodes : List ℕ) (nPairs : ℕ)
    (totalDemand : ℚ) (odPairs : List (ℕ × ℕ)) (rawDemands : List ℚ) :
    Except Err (List (ℕ × ℕ × ℚ)) :=
  if totalDemand < 0 then .error .valueError
  else if nodes.length < 2 ∧ 0 < nPairs then .error .valueError
  else
    let rawSum : ℚ := if rawDemands = [] then 1 else rawDemands.sum
    let scale : ℚ := if 0 < rawSum then totalDemand / rawSum else 0
    .ok ((odPairs.zip rawDemands).map fun p => (p.1.1, p.1.2, p.2 * scale))

/-! ### `add_freeflow_time_and_capacity` (network/attributes.py) -/

/-- The `CAP_PER_LANE` lookup table of `add_freeflow_time_and_capacity`. -/
def capPerLaneTable : List (String × ℚ) :=
  [("motorway", 1800), ("trunk", 1700), ("primary", 1400),
   ("secondary", 1100), ("tertiary", 900),
   ("residential", 600), ("service", 400)]

/-- Dictionary lookup in a string-keyed table (`dict.get`). -/
def lookupStr (tbl : List (String × ℚ)) (s : String) : Option ℚ :=
  (tbl.find? fun p => p.1 = s).map fun p => p.2

/-- The free-flow time `add_freeflow_time_and_capacity` computes for an edge:
a finite parsable `travel_time` wins; otherwise fall back to
`length / speed`, with `length` defaulting to `50` m, the speed taken from
`maxspeed` (default `default_speed_kph`) and floored at `5` kph. -/
def computedT0 (defaultSpeedKph : ℚ) (d : EdgeData ℚ) : ℚ :=
  match d.travel_time with
  | some t => t
  | none =>
    let speedKph := max 5 (d.maxspeed.getD defaultSpeedKph)
    let speedMps := speedKph * 1000 / 3600
    d.len.getD 50 / speedMps

/-- The capacity `add_freeflow_time_and_capacity` computes for an edge:
`max(50, cap_per_lane * lanes)`, with `lanes` floored at `1` and
`cap_per_lane` looked up from the highway class (default `"residential"`,
falling back to `default_capacity_vph_per_lane` for unknown classes). -/
def computedCapacity (defaultCapacityPerLane : ℚ) (d : EdgeData ℚ) : ℚ :=
  let lanesF := max 1 (d.lanes.getD 1)
  let capPerLane :=
    (lookupStr capPerLaneTable (d.highway.getD "residential")).getD
      defaultCapacityPerLane
  max 50 (capPerLane * lanesF)

/-- Model of `add_freeflow_time_and_capacity(G, default_speed_kph,
default_capacity_vph_per_lane)` from network/attributes.py: on every edge
set `t0` and `capacity` as computed above, and `setdefault` `flow` to `0`
and `time` to the computed `t0`. -/
def add_freeflow_time_and_capacity (G : Graph ℚ)
    (defaultSpeedKph defaultCapacityPerLane : ℚ) : Graph ℚ :=
  { G with
    edges := G.edges.map fun e =>
      let d := e.2.2.2
      let t0 := computedT0 defaultSpeedKph d
      (e.1, e.2.1, e.2.2.1,
        { d with
          t0 := some t0
          capacity := some (computedCapacity defaultCapacityPerLane d)
          flow := some (d.flow.getD 0)
          time := some (d.time.getD t0) }) }

/-! ### Connector proposal and application (scenarios/catalog.py)

The geographic part is abstracted: node coordinates live in `coords`
(the `nodes_df` lookup, all node ids numeric) and `hav` stands for the
float-trigonometry function `_haversine_m` on two `(lon, lat)` pairs. -/

/-- Model of the frozen dataclass `ConnectorSpec` with its field defaults. -/
structure ConnectorSpec where
  a : ℕ
  b : ℕ
  length_m : ℚ
  speed_kph : ℚ := 40
  lanes : ℚ := 1
  oneway : Bool := false
  name : String := "Proposed connector / bypass"
  deriving DecidableEq, Repr

/-- Coordinate lookup `nodes_df.loc[n, ["x", "y"]]`. -/
def coordsFind (coords : List (ℕ × ℚ × ℚ)) (n : ℕ) : Option (ℚ × ℚ) :=
  (coords.find? fun p => p.1 = n).map fun p => p.2

/-- The frontier expansion of `k_hop_neighborhood`: `k` rounds of adding all
successors and predecessors of the frontier. -/
def kHopExpand {α : Type} [LinearOrderedField α] (G : Graph α) :
    ℕ → List ℕ → List ℕ → List ℕ
  | 0, seen, _ => seen
  | k + 1, seen, frontier =>
    let nxt := (frontier.flatMap fun n => G.outNeighbors n ++ G.inNeighbors n).dedup
    kHopExpand G k (seen ++ nxt) nxt

/-- Model of `k_hop_neighborhood(seed)` inside `propose_connector_near_edge`:
the `k_hops`-fold undirected frontier expansion of the seed, filtered to
nodes with coordinates, sorted ascending. -/
def kHopNeighborhood (G : Graph ℚ) (coords : List (ℕ × ℚ × ℚ))
    (kHops : ℕ) (seed : ℕ) : List ℕ :=
  (((kHopExpand G kHops [seed] [seed]).dedup.filter
      fun n => (coordsFind coords n).isSome).insertionSort (· ≤ ·))

/-- A candidate row `(score, a, b, straight_m)` as appended to `candidates`. -/
def CandRow : Type := ℚ × ℕ × ℕ × ℚ

/-- The body of the candidate double loop for one pair `(a, b)`: `none` when
the pair is filtered out (`a == b`, already directly connected either way,
or farther apart than `max_straight_m`), otherwise the scored row, where a
disconnected pair gets the large detour constant `10000` and
`score = detour / max(10, straight_m)`. -/
def candidateAt (G : Graph ℚ) (coords : List (ℕ × ℚ × ℚ))
    (hav : ℚ × ℚ → ℚ × ℚ → ℚ) (maxStraight : ℚ) (a b : ℕ) :
    Option CandRow :=
  if a = b then none
  else if G.hasEdge a b || G.hasEdge b a then none
  else
    let straight := hav ((coordsFind coords a).getD (0, 0))
      ((coordsFind coords b).getD (0, 0))
    if maxStraight < straight then none
    else
      let detour := (G.minDistBy Graph.t0Weight a b).getD 10000
      some (detour / max 10 straight, a, b, straight)

/-- The candidate enumeration in loop order, without the `max_pairs` cap:
all surviving pairs of `Nu × Nv`, `a` ascending then `b` ascending. -/
def candidatesAll (G : Graph ℚ) (coords : List (ℕ × ℚ × ℚ))
    (hav : ℚ × ℚ → ℚ × ℚ → ℚ) (maxStraight : ℚ) (Nu Nv : List ℕ) :
    List CandRow :=
  Nu.flatMap fun a => Nv.filterMap fun b => candidateAt G coords hav maxStraight a b

/-- The inner `for b in Nv` loop with the running `checked` counter; returns
the accumulated candidates, the new counter and whether it hit the
`checked >= max_pairs` break. -/
def candLoopInner (G : Graph ℚ) (coords : List (ℕ × ℚ × ℚ))
    (hav : ℚ × ℚ → ℚ × ℚ → ℚ) (maxStraight : ℚ) (maxPairs : ℕ) (a : ℕ) :
    List ℕ → List CandRow → ℕ → List CandRow × ℕ × Bool
  | [], acc, checked => (acc, checked, false)
  | b :: bs, acc, checked =>
    match candidateAt G coords hav maxStraight a b with
    | none => candLoopInner G coords hav maxStraight maxPairs a bs acc checked
    | some c =>
      if maxPairs ≤ checked + 1 then (acc ++ [c], checked + 1, true)
      else candLoopInner G coords hav maxStraight maxPairs a bs (acc ++ [c]) (checked + 1)

/-- The outer `for a in Nu` loop, breaking when `checked >= max_pairs`. -/
def candLoopOuter (G : Graph ℚ) (coords : List (ℕ × ℚ × ℚ))
    (hav : ℚ × ℚ → ℚ × ℚ → ℚ) (maxStraight : ℚ) (maxPairs : ℕ) (Nv : List ℕ) :
    List ℕ → List CandRow → ℕ → List CandRow
  | [], acc, _ => acc
  | a :: ras, acc, checked =>
    match candLoopInner G coords hav maxStraight maxPairs a Nv acc checked with
    | (acc1, checked1, _) =>
      if maxPairs ≤ checked1 then acc1
      else candLoopOuter G coords hav maxStraight maxPairs Nv ras acc1 checked1

/-- Strict comparison in the sort key `(-score, a, b)` of the final
`candidates.sort`. -/
def candLT (c d : CandRow) : Bool :=
  d.1 < c.1 || (c.1 = d.1 && (c.2.1 < d.2.1 || (c.2.1 = d.2.1 && c.2.2.1 < d.2.2.1)))

/-- Model of `candidates.sort(key=...)` followed by `candidates[0]`: the
earliest row of minimal sort key (Python's sort is stable). -/
def pickBest (c : CandRow) (cs : List CandRow) : CandRow :=
  cs.foldl (fun best x => if candLT x best then x else best) c

/-- Model of `propose_connector_near_edge(G, nodes_df, u, v, k_hops,
max_straight_m, max_pairs)` from scenarios/catalog.py.  `Err.keyError`
models the `KeyError` the fallback branch's `nodes_df.loc` raises when an
endpoint has no coordinates (inside the candidate loop both endpoints come
from coordinate-filtered neighborhoods, so their lookups cannot fail). -/
def propose_connector_near_edge (G : Graph ℚ) (coords : List (ℕ × ℚ × ℚ))
    (hav : ℚ × ℚ → ℚ × ℚ → ℚ) (u v : ℕ) (kHops : ℕ) (maxStraight : ℚ)
    (maxPairs : ℕ) : Except Err ConnectorSpec :=
  let Nu := kHopNeighborhood G coords kHops u
  let Nv := kHopNeighborhood G coords kHops v
  match candLoopOuter G coords hav maxStraight maxPairs Nv Nu [] 0 with
  | [] =>
    match coordsFind coords u, coordsFind coords v with
    | some cu, some cv => .ok { a := u, b := v, length_m := hav cu cv }
    | _, _ => .error .keyError
  | c :: cs =>
    let best := pickBest c cs
    .ok { a := best.2.1, b := best.2.2.1, length_m := best.2.2.2 }

/-- The networkx key chosen by `G.add_edge(u, v)` without an explicit key:
the number of existing parallel edges, bumped past any collision. -/
def freshKeyAux (used : List ℕ) : ℕ → ℕ → ℕ
  | 0, k => k
  | fuel + 1, k => if k ∈ used then freshKeyAux used fuel (k + 1) else k

/-- Fresh parallel-edge key for `G.add_edge(u, v, **attrs)`. -/
def Graph.freshKey {α : Type} [LinearOrderedField α] (G : Graph α) (u v : ℕ) : ℕ :=
  let used := (G.edgesBetween u v).map fun p => p.1
  freshKeyAux used (used.length + 1) used.length

/-- Model of `G.add_edge(u, v, **attrs)`: endpoints are added to the node
set when absent and the edge is appended with a fresh key. -/
def Graph.addEdge {α : Type} [LinearOrderedField α] (G : Graph α) (u v : ℕ)
    (d : EdgeData α) : Graph α :=
  let ns1 := if u ∈ G.nodes then G.nodes else G.nodes ++ [u]
  let ns2 := if v ∈ ns1 then ns1 else ns1 ++ [v]
  { nodes := ns2, edges := G.edges ++ [(u, v, G.freshKey u v, d)] }

/-- The attribute record `apply_connector` writes on a new connector edge. -/
def connectorAttrs (spec : ConnectorSpec) : EdgeData ℚ :=
  let speedMps := max 1 (spec.speed_kph * 1000 / 3600)
  let t0 := spec.length_m / speedMps
  { len := some spec.length_m
    lanes := some spec.lanes
    maxspeed := some spec.speed_kph
    capacity := some (900 * spec.lanes)
    t0 := some t0
    time := some t0
    flow := some 0
    roadName := some spec.name
    highway := some "proposed_connector" }

/-- Model of `apply_connector(G, spec, two_way=...)` from
scenarios/catalog.py: add the `a → b` connector edge, and the reverse
`b → a` edge with identical attributes when `two_way` and the spec is not
one-way. -/
def apply_connector (G : Graph ℚ) (spec : ConnectorSpec) (two_way : Bool) :
    Graph ℚ :=
  let attrs := connectorAttrs spec
  let G1 := G.addEdge spec.a spec.b attrs
  if two_way && !spec.oneway then G1.addEdge spec.b spec.a attrs else G1

/-! ### Specification-side description of the routing step

`aonSpecAt` renders the specification's words for the routing step: for each
OD pair whose endpoints are both present, take the least-total-time path and
add the pair's full demand onto, for each consecutive node pair, the
parallel edge of minimum current time; skipped pairs contribute nothing and
edges on no selected path are absent from the mapping. -/

/-- The `(edge key, demand)` contributions of one OD triple under the
specification's description. -/
def pairSteps {α : Type} [LinearOrderedField α] (G : Graph α) (sp : Oracle)
    (t : ℕ × ℕ × α) : List ((ℕ × ℕ × ℕ) × α) :=
  if t.1 ∈ G.nodes ∧ t.2.1 ∈ G.nodes then
    match sp t.1 t.2.1 with
    | some p => (p.zip p.tail).filterMap fun s =>
        (G.bestKey s.1 s.2).map fun k => ((s.1, s.2, k), t.2.2)
    | none => []
  else []

/-- All `(edge key, demand)` contributions of an OD list. -/
def aonSpecContribs {α : Type} [LinearOrderedField α] (G : Graph α)
    (sp : Oracle) (od : List (ℕ × ℕ × α)) : List ((ℕ × ℕ × ℕ) × α) :=
  od.flatMap (pairSteps G sp)

/-- The specification-side auxiliary flow on one edge key: `none` when the
key lies on no selected path, otherwise the sum of the demands of the OD
pairs whose selected path crosses it (counted once per crossing). -/
def aonSpecAt {α : Type} [LinearOrderedField α] (G : Graph α) (sp : Oracle)
    (od : List (ℕ × ℕ × α)) (key : ℕ × ℕ × ℕ) : Option α :=
  match (aonSpecContribs G sp od).filter fun c => c.1 = key with
  | [] => none
  | hits => some ((hits.map fun c => c.2).sum)

/-- Combination of an optional dictionary entry with a list of additional
contributions: absent stays absent only when nothing is added. -/
def mergeOpt {α : Type} [LinearOrderedField α] (o : Option α) (l : List α) :
    Option α :=
  match l with
  | [] => o
  | _ => some (o.getD 0 + l.sum)

theorem auxFind_auxAdd {α : Type} [LinearOrderedField α]
    (aux : AuxMap α) (k key : ℕ × ℕ × ℕ) (dem : α) :
    auxFind (auxAdd aux k dem) key =
      if key = k then some ((auxFind aux k).getD 0 + dem) else auxFind aux key := by
  induction aux with
  | nil =>
    by_cases h : key = k
    · subst h; simp [auxAdd, auxFind, zero_add]
    · simp [auxAdd, auxFind, h, Ne.symm h]
  | cons hd tl ih =>
    obtain ⟨k0, v⟩ := hd
    by_cases hk0 : k0 = k
    · subst hk0
      by_cases h : key = k0
      · subst h; simp [auxAdd, auxFind]
      · simp [auxAdd, auxFind, h, Ne.symm h]
    · by_cases h : k0 = key
      · have hne : ¬ key = k := fun hc => hk0 (h.trans hc)
        simp [auxAdd, auxFind, hk0, h, hne]
      · simp [auxAdd, auxFind, hk0, h, Ne.symm (hk0 : k0 ≠ k), ih]

theorem edgesBetween_ne_nil_of_hasEdge {α : Type} [LinearOrderedField α]
    (G : Graph α) (u v : ℕ) (h : G.hasEdge u v = true) :
    G.edgesBetween u v ≠ [] := by
  simp only [Graph.hasEdge, List.any_eq_true] at h
  obtain ⟨e, he, hcond⟩ := h
  rw [decide_eq_true_eq] at hcond
  intro hnil
  have hmem : (e.2.2.1, e.2.2.2) ∈ G.edgesBetween u v := by
    rw [Graph.edgesBetween, List.mem_filterMap]
    exact ⟨e, he, by simp [hcond]⟩
  rw [hnil] at hmem
  exact absurd hmem (List.not_mem_nil _)

theorem bestKey_isSome_of_hasEdge {α : Type} [LinearOrderedField α]
    (G : Graph α) (u v : ℕ) (h : G.hasEdge u v = true) :
    (G.bestKey u v).isSome = true := by
  have hne := edgesBetween_ne_nil_of_hasEdge G u v h
  rw [Graph.bestKey]
  cases hc : G.edgesBetween u v with
  | nil => exact absurd hc hne
  | cons e es => simp

theorem isPathB_steps {α : Type} [LinearOrderedField α]
    (G : Graph α) (o d : ℕ) (p : List ℕ) (h : G.isPathB o d p = true) :
    ∀ s ∈ p.zip p.tail, G.hasEdge s.1 s.2 = true := by
  rw [Graph.isPathB, Bool.and_eq_true] at h
  have := h.2
  rw [List.all_eq_true] at this
  intro s hs
  exact this s hs

theorem assignPath_char {α : Type} [LinearOrderedField α] (G : Graph α)
    (dem : α) (p : List ℕ)
    (hp : ∀ s ∈ p.zip p.tail, (G.bestKey s.1 s.2).isSome = true) :
    ∀ aux : AuxMap α, ∃ aux1, assignPath G dem aux p = .ok aux1 ∧
      ∀ key, auxFind aux1 key =
        mergeOpt (auxFind aux key)
          ((((p.zip p.tail).filterMap fun s =>
              (G.bestKey s.1 s.2).map fun k => ((s.1, s.2, k), dem)).filter
            fun c => c.1 = key).map fun c => c.2) := by
  induction p with
  | nil => exact fun aux => ⟨aux, rfl, by simp [mergeOpt]⟩
  | cons u rest ih =>
    cases rest with
    | nil => exact fun aux => ⟨aux, rfl, by simp [mergeOpt]⟩
    | cons v rest2 =>
      intro aux
      have hb : (G.bestKey u v).isSome = true := hp (u, v) (by simp)
      obtain ⟨k, hk⟩ := Option.isSome_iff_exists.mp hb
      have hp2 : ∀ s ∈ (v :: rest2).zip (v :: rest2).tail,
          (G.bestKey s.1 s.2).isSome = true := by
        intro s hs
        apply hp
        simp only [List.tail_cons] at hs ⊢
        rw [List.zip_cons_cons]
        exact List.mem_cons_of_mem _ hs
      obtain ⟨aux1, heq, hchar⟩ := ih hp2 (auxAdd aux (u, v, k) dem)
      refine ⟨aux1, ?_, ?_⟩
      · show assignPath G dem aux (u :: v :: rest2) = .ok aux1
        rw [assignPath, hk]
        exact heq
      · intro key
        have hzip : (u :: v :: rest2).zip (u :: v :: rest2).tail =
            (u, v) :: ((v :: rest2).zip rest2) := rfl
        rw [hchar key, auxFind_auxAdd, hzip]
        by_cases hkey : key = (u, v, k)
        · subst hkey
          cases hS : (((((v :: rest2).zip rest2).filterMap fun s =>
              (G.bestKey s.1 s.2).map fun kk => ((s.1, s.2, kk), dem)).filter
                fun c => c.1 = (u, v, k)).map fun c => c.2) with
          | nil => simp [List.filterMap_cons, hk, List.filter_cons, mergeOpt, hS]
          | cons x xs =>
            simp [List.filterMap_cons, hk, List.filter_cons, mergeOpt, hS, add_assoc]
        · have hkey2 : ¬ ((u, v, k) = key) := Ne.symm hkey
          simp [List.filterMap_cons, hk, List.filter_cons, mergeOpt, hkey, hkey2]

theorem mergeOpt_append {α : Type} [LinearOrderedField α]
    (o : Option α) (l1 l2 : List α) :
    mergeOpt (mergeOpt o l1) l2 = mergeOpt o (l1 ++ l2) := by
  cases l1 with
  | nil => simp [mergeOpt]
  | cons x xs =>
    cases l2 with
    | nil => simp [mergeOpt]
    | cons y ys => simp [mergeOpt, add_assoc]

theorem aon_fold_char {α : Type} [LinearOrderedField α] (G : Graph α)
    (sp : Oracle) (od : List (ℕ × ℕ × α))
    (hod : ∀ t ∈ od, t.1 ∈ G.nodes → t.2.1 ∈ G.nodes →
      ∃ p, sp t.1 t.2.1 = some p ∧
        ∀ s ∈ p.zip p.tail, (G.bestKey s.1 s.2).isSome = true) :
    ∀ aux : AuxMap α, ∃ m, od.foldlM (aonStep G sp) aux = .ok m ∧
      ∀ key, auxFind m key =
        mergeOpt (auxFind aux key)
          (((aonSpecContribs G sp od).filter fun c => c.1 = key).map
            fun c => c.2) := by
  induction od with
  | nil =>
    exact fun aux => ⟨aux, rfl, by simp [aonSpecContribs, mergeOpt]⟩
  | cons t rest ih =>
    intro aux
    have hcontribs : aonSpecContribs G sp (t :: rest) =
        pairSteps G sp t ++ aonSpecContribs G sp rest := by
      simp [aonSpecContribs]
    by_cases hmem : t.1 ∈ G.nodes ∧ t.2.1 ∈ G.nodes
    · obtain ⟨p, hp, hsteps⟩ := hod t (by simp) hmem.1 hmem.2
      obtain ⟨aux1, heq1, hchar1⟩ := assignPath_char G t.2.2 p hsteps aux
      obtain ⟨m, heqm, hcharm⟩ := ih
        (fun s hs h1 h2 => hod s (by simp [hs]) h1 h2) aux1
      refine ⟨m, ?_, ?_⟩
      · show aonStep G sp aux t >>= (rest.foldlM (aonStep G sp)) = .ok m
        rw [aonStep, if_pos hmem, hp]
        show assignPath G t.2.2 aux p >>= (rest.foldlM (aonStep G sp)) = .ok m
        rw [heq1]
        show rest.foldlM (aonStep G sp) aux1 = .ok m
        exact heqm
      · intro key
        rw [hcharm key, hchar1 key, hcontribs, mergeOpt_append]
        have hpair : pairSteps G sp t = (p.zip p.tail).filterMap fun s =>
            (G.bestKey s.1 s.2).map fun k => ((s.1, s.2, k), t.2.2) := by
          rw [pairSteps, if_pos hmem, hp]
        rw [hpair, List.filter_append, List.map_append]
    · have hpair : pairSteps G sp t = [] := by
        rw [pairSteps, if_neg hmem]
      obtain ⟨m, heqm, hcharm⟩ := ih
        (fun s hs h1 h2 => hod s (by simp [hs]) h1 h2) aux
      refine ⟨m, ?_, ?_⟩
      · show aonStep G sp aux t >>= (rest.foldlM (aonStep G sp)) = .ok m
        rw [aonStep, if_neg hmem]
        show rest.foldlM (aonStep G sp) aux = .ok m
        exact heqm
      · intro key
        rw [hcharm key, hcontribs, hpair]
        simp

theorem oracle_path_of_some {α : Type} [LinearOrderedField α]
    (G : Graph α) (sp : Oracle) (hok : OracleOK G sp) {o d : ℕ} {p : List ℕ}
    (h1 : o ∈ G.nodes) (h2 : d ∈ G.nodes) (hp : sp o d = some p) :
    G.isPathB o d p = true := by
  have hat := hok o h1 d h2
  simp only [oracleOKAt, hp, Bool.and_eq_true] at hat
  exact hat.1

/-- C5.  For every network with positive `time` attributes on all edges and
every OD list all of whose present-endpoint pairs are connected (so that
the `nx.shortest_path` oracle answers on them), `all_or_nothing_assignment`
succeeds and the returned mapping agrees, on every edge key, with the
specification-side aggregation `aonSpecAt`: skipped pairs (absent
endpoints) contribute nothing, each routed pair adds its full demand onto
the minimum-`time` parallel edge of every step of its least-total-time
path, and keys on no selected path are absent from the mapping. -/
theorem all_or_nothing_matches_spec {α : Type} [LinearOrderedField α]
    (G : Graph α) (sp : Oracle) (od : List (ℕ × ℕ × α))
    (hok : OracleOK G sp)
    (hpos : ∀ e ∈ G.edges, 0 < e.2.2.2.time.getD 0)
    (hconn : ∀ t ∈ od, t.1 ∈ G.nodes → t.2.1 ∈ G.nodes →
      (sp t.1 t.2.1).isSome = true) :
    ∃ m, all_or_nothing_assignment G sp od = .ok m ∧
      ∀ key, auxFind m key = aonSpecAt G sp od key := by
  have hod : ∀ t ∈ od, t.1 ∈ G.nodes → t.2.1 ∈ G.nodes →
      ∃ p, sp t.1 t.2.1 = some p ∧
        ∀ s ∈ p.zip p.tail, (G.bestKey s.1 s.2).isSome = true := by
    intro t ht h1 h2
    obtain ⟨p, hp⟩ := Option.isSome_iff_exists.mp (hconn t ht h1 h2)
    refine ⟨p, hp, fun s hs => ?_⟩
    exact bestKey_isSome_of_hasEdge _ _ _
      (isPathB_steps _ _ _ _ (oracle_path_of_some G sp hok h1 h2 hp) s hs)
  obtain ⟨m, heq, hchar⟩ := aon_fold_char G sp od hod []
  refine ⟨m, heq, fun key => ?_⟩
  rw [hchar key]
  cases hC : (aonSpecContribs G sp od).filter (fun c => c.1 = key) with
  | nil => simp [aonSpecAt, auxFind, mergeOpt, hC]
  | cons x xs => simp [aonSpecAt, auxFind, mergeOpt, hC, zero_add]

/-- A concrete executable shortest-path oracle: the first least-total-`time`
element of the cycle-free-walk enumeration (used to instantiate witnesses;
`OracleOK` is checked per graph). -/
def spOracle {α : Type} [LinearOrderedField α] (G : Graph α) : Oracle := fun a b =>
  match G.simplePaths a b with
  | [] => none
  | p :: ps => some (ps.foldl (fun best q =>
      if G.pathWeight Graph.timeWeight q < G.pathWeight Graph.timeWeight best
      then q else best) p)

/-- The concrete disconnected instance for C1: nodes `1, 2, 3`, a single
edge `1 → 2` of positive time, and one OD pair `(1, 3)` whose endpoints are
both present but not connected. -/
def c1G : Graph ℚ := ⟨[1, 2, 3], [(1, 2, 0, { time := some 1 })]⟩

/-- C1.  The claim (and §4.2/§7 of the spec) requires that an OD pair with
both endpoints present but no connecting path contributes zero flow and
must not raise.  The code instead calls `nx.shortest_path` unguarded, so on
the network `c1G` — all edge times positive, both endpoints of the pair
present, no path between them — `all_or_nothing_assignment` raises
`NetworkXNoPath` (= `Err.noPath`) for every oracle satisfying the
`nx.shortest_path` contract, instead of returning a mapping.  This records
the divergence of the code from the claimed error handling. -/
theorem c1_disconnected_pair_raises (sp : Oracle) (hok : OracleOK c1G sp) :
    all_or_nothing_assignment c1G sp [(1, 3, 100)] = .error .noPath := by
  have h1 : (1 : ℕ) ∈ c1G.nodes := by decide
  have h3 : (3 : ℕ) ∈ c1G.nodes := by decide
  have hnone : sp 1 3 = none := by
    cases hp : sp 1 3 with
    | none => rfl
    | some p =>
      exfalso
      have hat := hok 1 h1 3 h3
      simp only [oracleOKAt, hp, Bool.and_eq_true, decide_eq_true_eq] at hat
      have hmin : c1G.minDistBy Graph.timeWeight 1 3 = none := by
        norm_num [Graph.minDistBy, Graph.simplePaths, Graph.simplePathsAux,
          Graph.outNeighbors, c1G, List.dedup, List.filter, List.flatMap,
          List.filterMap, List.min?]
      rw [hmin] at hat
      exact Option.some_ne_none _ hat.2
  show aonStep c1G sp [] (1, 3, 100) >>=
    (List.foldlM (aonStep c1G sp) · []) = .error .noPath
  rw [aonStep, if_pos ⟨h1, h3⟩, hnone]
  rfl

/-- Witness for C1: the executable oracle `spOracle c1G` satisfies the
`nx.shortest_path` contract on `c1G`, and the theorem applies to it. -/
theorem c1_disconnected_pair_raises_witness :
    OracleOK c1G (spOracle c1G) ∧
      all_or_nothing_assignment c1G (spOracle c1G) [(1, 3, 100)] =
        .error .noPath := by
  have hok : OracleOK c1G (spOracle c1G) := by
    norm_num [OracleOK, oracleOKAt, c1G, spOracle, Graph.minDistBy,
      Graph.simplePaths, Graph.simplePathsAux, Graph.outNeighbors, Graph.isPathB,
      Graph.hasEdge, Graph.pathWeight, Graph.minWeightBetween, Graph.edgesBetween,
      Graph.timeWeight, List.min?, List.dedup, List.filter, List.flatMap,
      List.filterMap, List.foldl, List.all, List.zip, List.zipWith]
  exact ⟨hok, c1_disconnected_pair_raises (spOracle c1G) hok⟩

/-- The specification-side rendering of the MSA loop (claim C2): iteration
`k` first recomputes every edge's time from its current flow via the cost
function, then computes the all-or-nothing auxiliary flow, then averages
`flow[e] := flow[e] + (1/(k+1)) * (aux[e] - flow[e])` (`aux[e] = 0` for
unvisited edges); `n` iterations remain. -/
noncomputable def msaSpecIter (sp : Oracle) (od : List (ℕ × ℕ × ℝ))
    (alpha beta : ℝ) : ℕ → ℕ → Graph ℝ → Except Err (Graph ℝ)
  | 0, _, H => .ok H
  | n + 1, k, H => do
    let H1 := update_edge_times H alpha beta
    let aux ← all_or_nothing_assignment H1 sp od
    msaSpecIter sp od alpha beta n (k + 1) (msaFlowStep H1 aux (1 / ((k : ℝ) + 1)))

theorem foldlM_range'_eq_msaSpecIter (sp : Oracle) (od : List (ℕ × ℕ × ℝ))
    (alpha beta : ℝ) :
    ∀ (n s : ℕ) (H : Graph ℝ),
      (List.range' s n).foldlM (msaIterStep sp od alpha beta) H =
        msaSpecIter sp od alpha beta n s H := by
  intro n
  induction n with
  | zero => intro s H; rfl
  | succ n ih =>
    intro s H
    rw [List.range'_succ, List.foldlM_cons]
    show (msaIterStep sp od alpha beta H s) >>=
      (List.foldlM (msaIterStep sp od alpha beta) · (List.range' (s + 1) n)) =
      msaSpecIter sp od alpha beta (n + 1) s H
    rw [msaIterStep, msaSpecIter]
    cases haux : all_or_nothing_assignment (update_edge_times H alpha beta) sp od with
    | error e => rfl
    | ok aux =>
      exact ih (s + 1) (msaFlowStep (update_edge_times H alpha beta) aux
        (1 / ((s : ℝ) + 1)))

theorem assignPath_error_eq {α : Type} [LinearOrderedField α] (G : Graph α)
    (dem : α) :
    ∀ (p : List ℕ) (aux : AuxMap α) (er : Err),
      assignPath G dem aux p = .error er → er = .keyError := by
  intro p
  induction p with
  | nil => intro aux er h; exact absurd h (by simp [assignPath])
  | cons u rest ih =>
    cases rest with
    | nil => intro aux er h; exact absurd h (by simp [assignPath])
    | cons v rest2 =>
      intro aux er h
      rw [assignPath] at h
      cases hb : G.bestKey u v with
      | none => rw [hb] at h; exact (Except.error.inj h).symm
      | some k => rw [hb] at h; exact ih _ _ h

theorem aonStep_error_eq {α : Type} [LinearOrderedField α] (G : Graph α)
    (sp : Oracle) (aux : AuxMap α) (t : ℕ × ℕ × α) (er : Err)
    (h : aonStep G sp aux t = .error er) : er = .noPath ∨ er = .keyError := by
  rw [aonStep] at h
  by_cases hmem : t.1 ∈ G.nodes ∧ t.2.1 ∈ G.nodes
  · rw [if_pos hmem] at h
    cases hp : sp t.1 t.2.1 with
    | none => rw [hp] at h; exact Or.inl (Except.error.inj h).symm
    | some p =>
      rw [hp] at h
      exact Or.inr (assignPath_error_eq G t.2.2 p aux er h)
  · rw [if_neg hmem] at h
    exact absurd h (by simp)

theorem aon_error_eq {α : Type} [LinearOrderedField α] (G : Graph α)
    (sp : Oracle) :
    ∀ (od : List (ℕ × ℕ × α)) (aux : AuxMap α) (er : Err),
      od.foldlM (aonStep G sp) aux = .error er →
        er = .noPath ∨ er = .keyError := by
  intro od
  induction od with
  | nil => intro aux er h; exact absurd h (by simp [pure, Except.pure])
  | cons t rest ih =>
    intro aux er h
    rw [List.foldlM_cons] at h
    cases hstep : aonStep G sp aux t with
    | error e =>
      rw [hstep] at h
      have : e = er := Except.error.inj h
      exact this ▸ aonStep_error_eq G sp aux t e hstep
    | ok aux1 =>
      rw [hstep] at h
      exact ih aux1 er h

theorem msaSpecIter_error_eq (sp : Oracle) (od : List (ℕ × ℕ × ℝ))
    (alpha beta : ℝ) :
    ∀ (n k : ℕ) (H : Graph ℝ) (er : Err),
      msaSpecIter sp od alpha beta n k H = .error er →
        er = .noPath ∨ er = .keyError := by
  intro n
  induction n with
  | zero => intro k H er h; exact absurd h (by simp [msaSpecIter])
  | succ n ih =>
    intro k H er h
    rw [msaSpecIter] at h
    cases haux : all_or_nothing_assignment (update_edge_times H alpha beta)
        sp od with
    | error e =>
      rw [haux] at h
      have : e = er := Except.error.inj h
      exact this ▸ aon_error_eq _ sp od [] e haux
    | ok aux =>
      rw [haux] at h
      exact ih (k + 1) _ er h

/-- C2.  `msa_traffic_assignment` raises the invalid-argument error
(`ValueError`) exactly when `iters < 0`; and for `iters ≥ 0` it equals the
specification-side algorithm: after the flow/time initialization it
performs exactly `iters` iterations — iteration `k` recomputes every
edge's time from its current flow via the cost function, computes the
all-or-nothing auxiliary flow, and sets
`flow[e] := flow[e] + (1/(k+1)) * (aux[e] - flow[e])` with `aux[e] = 0`
for unvisited edges — followed by exactly one final time recompute
(`msaSpecIter` renders that description; routing errors propagate through
both sides identically). -/
theorem msa_assignment_structure (G : Graph ℝ) (sp : Oracle)
    (od : List (ℕ × ℕ × ℝ)) (iters : ℤ) (alpha beta : ℝ) :
    (msa_traffic_assignment G sp od iters alpha beta = .error .valueError ↔
      iters < 0) ∧
    msa_traffic_assignment G sp od iters alpha beta =
      if iters < 0 then .error .valueError
      else (msaSpecIter sp od alpha beta iters.toNat 0 (msaInit G)).map
        fun H => update_edge_times H alpha beta := by
  have heq : msa_traffic_assignment G sp od iters alpha beta =
      if iters < 0 then .error .valueError
      else (msaSpecIter sp od alpha beta iters.toNat 0 (msaInit G)).map
        fun H => update_edge_times H alpha beta := by
    by_cases hneg : iters < 0
    · simp [msa_traffic_assignment, hneg]
    · rw [msa_traffic_assignment, if_neg hneg, if_neg hneg,
        List.range_eq_range', foldlM_range'_eq_msaSpecIter]
      cases hs : msaSpecIter sp od alpha beta iters.toNat 0 (msaInit G) with
      | error e => rfl
      | ok H => rfl
  refine ⟨?_, heq⟩
  rw [heq]
  by_cases hneg : iters < 0
  · simp [hneg]
  · rw [if_neg hneg]
    constructor
    · intro hmap
      cases hs : msaSpecIter sp od alpha beta iters.toNat 0 (msaInit G) with
      | ok H =>
        rw [hs] at hmap
        exact Except.noConfusion hmap
      | error e =>
        rw [hs] at hmap
        have he : Except.error (ε := Err) (α := Graph ℝ) e =
            Except.error Err.valueError := hmap
        rcases msaSpecIter_error_eq sp od alpha beta _ _ _ e hs with h | h <;>
          · rw [Except.error.inj he] at h
            cases h
    · intro h
      exact absurd h hneg

/-- C3 (amended).  With `iters = 0`, for every network whose edges carry no
pre-existing positive flow (the `flow` attribute absent or `0` — the
initialization keeps an existing flow value rather than zeroing it) and
carry a `t0` attribute, and any `beta > 0`, `msa_traffic_assignment`
returns the free-flow network: every edge's `flow` becomes exactly `0` and
its `time` becomes exactly its `t0`, all other attributes unchanged. -/
theorem msa_zero_iters_freeflow (G : Graph ℝ) (sp : Oracle)
    (od : List (ℕ × ℕ × ℝ)) (alpha beta : ℝ)
    (hflow : ∀ e ∈ G.edges, e.2.2.2.flow = none ∨ e.2.2.2.flow = some 0)
    (ht0 : ∀ e ∈ G.edges, (e.2.2.2.t0).isSome = true)
    (hbeta : 0 < beta) :
    msa_traffic_assignment G sp od 0 alpha beta =
      .ok { nodes := G.nodes,
            edges := G.edges.map fun e => (e.1, e.2.1, e.2.2.1,
              { e.2.2.2 with flow := some 0, time := e.2.2.2.t0 }) } := by
  have h0 : ¬ ((0 : ℤ) < 0) := by norm_num
  rw [msa_traffic_assignment, if_neg h0]
  show Except.ok (update_edge_times (msaInit G) alpha beta) = _
  rw [update_edge_times, msaInit]
  simp only [List.map_map, Except.ok.injEq]
  refine Graph.mk.injEq _ _ _ _ ▸ ⟨rfl, ?_⟩
  apply List.map_congr_left
  intro e he
  obtain ⟨t, ht⟩ := Option.isSome_iff_exists.mp (ht0 e he)
  have hf : e.2.2.2.flow.getD 0 = 0 := by
    rcases hflow e he with h | h <;> simp [h]
  have hb : bpr_time t 0 (e.2.2.2.capacity.getD 1) alpha beta = t := by
    rw [bpr_time, zero_div, Real.zero_rpow (ne_of_gt hbeta)]
    ring
  simp [Function.comp, ht, hf, hb]

/-- A one-edge network that already carries a nonzero `flow` attribute. -/
def msaWarmG : Graph ℝ :=
  ⟨[1, 2], [(1, 2, 0, { t0 := some 2, capacity := some 1, flow := some 5 })]⟩

/-- The path oracle of an OD-free run (never consulted). -/
def spNone : Oracle := fun _ _ => none

/-- Counterexample to C3 as stated: on the network `msaWarmG`, whose single
edge arrives with `flow = 5`, running `msa_traffic_assignment` with
`iters = 0` (default `alpha`, `beta`) returns an edge whose flow is still
`5`, not `0` — the initialization keeps `data.get("flow", 0.0)` instead of
setting `flow := 0` as the claim asserts. -/
theorem msa_zero_iters_warm_start_counterexample :
    (msa_traffic_assignment msaWarmG spNone [] 0 (15 / 100) 4).map
      (fun H => H.edges.map fun e => e.2.2.2.flow) = .ok [some 5] ∧
    (5 : ℝ) ≠ 0 := by
  constructor
  · have h0 : ¬ ((0 : ℤ) < 0) := by norm_num
    rw [msa_traffic_assignment, if_neg h0]
    show (Except.ok (update_edge_times (msaInit msaWarmG) (15 / 100) 4)).map _ = _
    simp [update_edge_times, msaInit, msaWarmG, Except.map]
  · norm_num

/-- A one-edge network with `t0` set and no pre-existing flow or time. -/
def msaFreeG : Graph ℝ :=
  ⟨[1, 2], [(1, 2, 0, { t0 := some 2, capacity := some 1 })]⟩

/-- Witness for the amended C3: the hypotheses hold on `msaFreeG` and the
theorem applies, giving flow `0` and `time = t0` on its edge. -/
theorem msa_zero_iters_freeflow_witness :
    (∀ e ∈ msaFreeG.edges, e.2.2.2.flow = none ∨ e.2.2.2.flow = some 0) ∧
    (∀ e ∈ msaFreeG.edges, (e.2.2.2.t0).isSome = true) ∧ ((0 : ℝ) < 4) ∧
    msa_traffic_assignment msaFreeG spNone [] 0 (15 / 100) 4 =
      .ok { nodes := msaFreeG.nodes,
            edges := msaFreeG.edges.map fun e => (e.1, e.2.1, e.2.2.1,
              { e.2.2.2 with flow := some 0, time := e.2.2.2.t0 }) } :=
  ⟨by simp [msaFreeG], by simp [msaFreeG], by norm_num,
    msa_zero_iters_freeflow msaFreeG spNone [] (15 / 100) 4
      (by simp [msaFreeG]) (by simp [msaFreeG]) (by norm_num)⟩

/-- C4 (on the spec-modelled `bpr_time`; assignment/bpr.py is absent from
the source tree).  For positive `t0`, congestion parameters `alpha > 0`,
`beta > 0` and non-negative capacity: the function computes exactly
`t0 * (1 + alpha * (flow / capacity) ^ beta)` whenever `capacity ≠ 0` (a
zero capacity falls back to the positive floor instead of dividing by
zero); for every `flow ≥ 0` the result is at least `t0`; at `flow = 0` it
equals `t0` exactly, and for `flow ≥ 0` it equals `t0` only at `flow = 0`;
and it is strictly increasing in `flow` on `flow ≥ 0`.  The model is a
total function on ℝ, so no input raises. -/
theorem bpr_time_properties (t0 capacity alpha beta : ℝ)
    (ht0 : 0 < t0) (halpha : 0 < alpha) (hbeta : 0 < beta)
    (hcap : 0 ≤ capacity) :
    (capacity ≠ 0 → ∀ flow : ℝ, bpr_time t0 flow capacity alpha beta =
      t0 * (1 + alpha * (flow / capacity) ^ beta)) ∧
    (∀ flow : ℝ, 0 ≤ flow → t0 ≤ bpr_time t0 flow capacity alpha beta) ∧
    (bpr_time t0 0 capacity alpha beta = t0) ∧
    (∀ flow : ℝ, 0 ≤ flow →
      (bpr_time t0 flow capacity alpha beta = t0 ↔ flow = 0)) ∧
    (∀ f g : ℝ, 0 ≤ f → f < g →
      bpr_time t0 f capacity alpha beta < bpr_time t0 g capacity alpha beta) := by
  set c : ℝ := if capacity = 0 then 1 else capacity with hc
  have hcpos : 0 < c := by
    rw [hc]
    split
    · norm_num
    · rename_i h
      exact lt_of_le_of_ne hcap (Ne.symm h)
  have hzero : bpr_time t0 0 capacity alpha beta = t0 := by
    rw [bpr_time, ← hc, zero_div, Real.zero_rpow (ne_of_gt hbeta)]
    ring
  have hmono : ∀ f g : ℝ, 0 ≤ f → f < g →
      bpr_time t0 f capacity alpha beta < bpr_time t0 g capacity alpha beta := by
    intro f g hf hfg
    rw [bpr_time, bpr_time, ← hc]
    have hdiv : f / c < g / c := (div_lt_div_iff_of_pos_right hcpos).mpr hfg
    have hpow : (f / c) ^ beta < (g / c) ^ beta :=
      Real.rpow_lt_rpow (div_nonneg hf hcpos.le) hdiv hbeta
    have h1 : alpha * (f / c) ^ beta < alpha * (g / c) ^ beta :=
      mul_lt_mul_of_pos_left hpow halpha
    have h2 : 1 + alpha * (f / c) ^ beta < 1 + alpha * (g / c) ^ beta := by
      linarith
    exact mul_lt_mul_of_pos_left h2 ht0
  have hge : ∀ flow : ℝ, 0 ≤ flow → t0 ≤ bpr_time t0 flow capacity alpha beta := by
    intro flow hflow
    rcases eq_or_lt_of_le hflow with h | h
    · rw [← h, hzero]
    · have := hmono 0 flow le_rfl h
      rw [hzero] at this
      exact this.le
  refine ⟨?_, hge, hzero, ?_, hmono⟩
  · intro hne flow
    rw [bpr_time, ← hc, hc, if_neg hne]
  · intro flow hflow
    constructor
    · intro heq
      by_contra hne
      have hpos : 0 < flow := lt_of_le_of_ne hflow (Ne.symm hne)
      have := hmono 0 flow le_rfl hpos
      rw [hzero, heq] at this
      exact lt_irrefl _ this
    · intro h
      rw [h, hzero]

/-- Witness for C4: the hypotheses hold at `t0 = 2`, `capacity = 1`,
`alpha = 0.15`, `beta = 4`, and the theorem applies (shown here through its
binder-free conjunct: the cost at zero flow is exactly `t0`). -/
theorem bpr_time_properties_witness :
    ((0 : ℝ) < 2) ∧ ((0 : ℝ) < 15 / 100) ∧ ((0 : ℝ) < 4) ∧ ((0 : ℝ) ≤ 1) ∧
    bpr_time 2 0 1 (15 / 100) 4 = 2 :=
  ⟨by norm_num, by norm_num, by norm_num, by norm_num,
    (bpr_time_properties 2 1 (15 / 100) 4 (by norm_num) (by norm_num)
      (by norm_num) (by norm_num)).2.2.1⟩

/-- A concrete routing instance with parallel edges: two `1 → 2` edges of
times `2` and `1`, one `2 → 3` edge. -/
def aonParG : Graph ℚ :=
  ⟨[1, 2, 3], [(1, 2, 0, { time := some 2 }), (1, 2, 1, { time := some 1 }),
    (2, 3, 0, { time := some 1 })]⟩

/-- Witness for C5: on `aonParG` the executable oracle satisfies the
contract, all edge times are positive, the single OD pair is connected,
and the theorem applies. -/
theorem all_or_nothing_matches_spec_witness :
    OracleOK aonParG (spOracle aonParG) ∧
    (∀ e ∈ aonParG.edges, 0 < e.2.2.2.time.getD 0) ∧
    (∀ t ∈ ([(1, 3, 10)] : List (ℕ × ℕ × ℚ)), t.1 ∈ aonParG.nodes →
      t.2.1 ∈ aonParG.nodes → (spOracle aonParG t.1 t.2.1).isSome = true) ∧
    (∃ m, all_or_nothing_assignment aonParG (spOracle aonParG) [(1, 3, 10)] =
        .ok m ∧
      ∀ key, auxFind m key =
        aonSpecAt aonParG (spOracle aonParG) [(1, 3, 10)] key) := by
  have hok : OracleOK aonParG (spOracle aonParG) := by
    norm_num [OracleOK, oracleOKAt, aonParG, spOracle, Graph.minDistBy,
      Graph.simplePaths, Graph.simplePathsAux, Graph.outNeighbors, Graph.isPathB,
      Graph.hasEdge, Graph.pathWeight, Graph.minWeightBetween, Graph.edgesBetween,
      Graph.timeWeight, List.min?, List.dedup, List.filter, List.flatMap,
      List.filterMap, List.foldl, List.all, List.zip, List.zipWith]
  have hpos : ∀ e ∈ aonParG.edges, 0 < e.2.2.2.time.getD 0 := by
    norm_num [aonParG]
  have hconn : ∀ t ∈ ([(1, 3, 10)] : List (ℕ × ℕ × ℚ)), t.1 ∈ aonParG.nodes →
      t.2.1 ∈ aonParG.nodes → (spOracle aonParG t.1 t.2.1).isSome = true := by
    norm_num [aonParG, spOracle, Graph.simplePaths, Graph.simplePathsAux,
      Graph.outNeighbors, List.dedup, List.filter, List.flatMap, List.filterMap,
      List.foldl]
  exact ⟨hok, hpos, hconn,
    all_or_nothing_matches_spec aonParG (spOracle aonParG) [(1, 3, 10)]
      hok hpos hconn⟩

/-- C6 (amended).  For a graph with at least 2 nodes, `n_pairs >= 1`, a
positive requested total, and any sampling outcome respecting the loop
invariants (`n_pairs` pairs with distinct endpoints, `n_pairs` positive raw
draws), the generator succeeds and its OD list sums exactly to the
requested total (hence within the claimed `1e-6`), every pair has
`origin != destination`, and every demand is positive.  (As stated the
claim fails at `n_pairs = 0`, where the list is empty regardless of the
requested total, and at `total = 0`, where all demands are `0`.) -/
theorem generate_od_total_properties (nodes : List ℕ) (nPairs : ℕ)
    (total : ℚ) (odPairs : List (ℕ × ℕ)) (raws : List ℚ)
    (hn : 2 ≤ nodes.length) (hp : 1 ≤ nPairs) (htot : 0 < total)
    (hlen1 : odPairs.length = nPairs) (hlen2 : raws.length = nPairs)
    (hne : ∀ p ∈ odPairs, p.1 ≠ p.2) (hraw : ∀ r ∈ raws, 0 < r) :
    ∃ od, generate_od_weighted_total nodes nPairs total odPairs raws =
        .ok od ∧
      (od.map fun t => t.2.2).sum = total ∧
      (∀ t ∈ od, t.1 ≠ t.2.1) ∧ (∀ t ∈ od, 0 < t.2.2) := by
  have hrne : raws ≠ [] := by
    intro h
    rw [h] at hlen2
    simp only [List.length_nil] at hlen2
    omega
  have hsum : 0 < raws.sum := List.sum_pos raws hraw hrne
  have hv1 : ¬ (total < 0) := not_lt.mpr htot.le
  have hv2 : ¬ (nodes.length < 2 ∧ 0 < nPairs) := by
    intro h
    exact absurd h.1 (not_lt.mpr hn)
  have hgen : generate_od_weighted_total nodes nPairs total odPairs raws =
      .ok ((odPairs.zip raws).map fun p =>
        (p.1.1, p.1.2, p.2 * (total / raws.sum))) := by
    simp [generate_od_weighted_total, hv1, hv2, hrne, hsum]
  refine ⟨_, hgen, ?_, ?_, ?_⟩
  · rw [List.map_map]
    have hcomp : ((fun t : ℕ × ℕ × ℚ => t.2.2) ∘ fun p : (ℕ × ℕ) × ℚ =>
        (p.1.1, p.1.2, p.2 * (total / raws.sum))) =
        fun p : (ℕ × ℕ) × ℚ => p.2 * (total / raws.sum) := rfl
    rw [hcomp, List.sum_map_mul_right]
    have hsnd : (odPairs.zip raws).map Prod.snd = raws :=
      List.map_snd_zip odPairs raws (by omega)
    rw [hsnd, mul_comm, div_mul_cancel₀ _ (ne_of_gt hsum)]
  · intro t ht
    rw [List.mem_map] at ht
    obtain ⟨p, hpmem, rfl⟩ := ht
    obtain ⟨p1, p2⟩ := p
    exact hne p1 (List.of_mem_zip hpmem).1
  · intro t ht
    rw [List.mem_map] at ht
    obtain ⟨p, hpmem, rfl⟩ := ht
    exact mul_pos (hraw p.2 (List.of_mem_zip hpmem).2) (div_pos htot hsum)

/-- Counterexample to C6 as stated: with `n_pairs = 0` (legal per the
claim) on a 2-node graph, the generator returns the empty OD list, whose
demand sum `0` misses the requested total `8000` by far more than `1e-6`. -/
theorem generate_od_total_counterexample :
    generate_od_weighted_total [1, 2] 0 8000 [] [] = .ok [] ∧
    ¬ (|((([] : List (ℕ × ℕ × ℚ)).map fun t => t.2.2).sum - 8000)| ≤
      1 / 1000000) := by
  constructor
  · norm_num [generate_od_weighted_total]
  · norm_num

/-- Witness for the amended C6: one sampled pair `(1, 2)` with raw draw
`1/2` and requested total `100` satisfies every hypothesis. -/
theorem generate_od_total_properties_witness :
    2 ≤ ([1, 2] : List ℕ).length ∧ (1 : ℕ) ≤ 1 ∧ (0 : ℚ) < 100 ∧
    (∃ od, generate_od_weighted_total [1, 2] 1 100 [(1, 2)] [1 / 2] =
        .ok od ∧
      (od.map fun t => t.2.2).sum = 100 ∧
      (∀ t ∈ od, t.1 ≠ t.2.1) ∧ (∀ t ∈ od, 0 < t.2.2)) :=
  ⟨by norm_num, le_rfl, by norm_num,
    generate_od_total_properties [1, 2] 1 100 [(1, 2)] [1 / 2]
      (by norm_num) le_rfl (by norm_num) rfl rfl
      (by norm_num) (by norm_num)⟩

/-- C7 (amended).  After `add_freeflow_time_and_capacity`, every edge
carries `t0 > 0`, `capacity > 0` (indeed at least the floor `50`), and
`time ≥ t0`, for every input multigraph whose supplied optional attributes
are consistent: a parsable `travel_time`, when present, is positive; a
parsable `length`, when present, is positive; and a pre-existing `time`,
when present, is at least the computed free-flow time (the initialization
only `setdefault`s `time`).  Missing or unparsable `length`, `maxspeed`,
`lanes` and `highway` attributes are replaced by defaults and never
violate the invariants.  (As stated the claim fails, e.g. for a supplied
`travel_time` of `0`, which is taken over verbatim as `t0`.) -/
theorem add_freeflow_initialization_invariants (G : Graph ℚ)
    (defSpeed defCap : ℚ)
    (htt : ∀ e ∈ G.edges, ∀ t, e.2.2.2.travel_time = some t → 0 < t)
    (hlen : ∀ e ∈ G.edges, ∀ l, e.2.2.2.len = some l → 0 < l)
    (htime : ∀ e ∈ G.edges, ∀ tm, e.2.2.2.time = some tm →
      computedT0 defSpeed e.2.2.2 ≤ tm) :
    ∀ e ∈ (add_freeflow_time_and_capacity G defSpeed defCap).edges,
      (∃ τ, e.2.2.2.t0 = some τ ∧ 0 < τ) ∧
      (∃ c, e.2.2.2.capacity = some c ∧ 50 ≤ c) ∧
      (∃ τ tm, e.2.2.2.t0 = some τ ∧ e.2.2.2.time = some tm ∧ τ ≤ tm) := by
  intro e he
  rw [add_freeflow_time_and_capacity] at he
  simp only [List.mem_map] at he
  obtain ⟨e0, he0, rfl⟩ := he
  have ht0pos : 0 < computedT0 defSpeed e0.2.2.2 := by
    cases htt' : e0.2.2.2.travel_time with
    | some t => simpa [computedT0, htt'] using htt e0 he0 t htt'
    | none =>
      have hspeed : 0 < max 5 (e0.2.2.2.maxspeed.getD defSpeed) * 1000 / 3600 := by
        have h5 : (0 : ℚ) < max 5 (e0.2.2.2.maxspeed.getD defSpeed) :=
          lt_of_lt_of_le (by norm_num) (le_max_left _ _)
        positivity
      have hl : 0 < e0.2.2.2.len.getD 50 := by
        cases hld : e0.2.2.2.len with
        | none => norm_num
        | some l => simpa using hlen e0 he0 l hld
      simpa [computedT0, htt'] using div_pos hl hspeed
  refine ⟨⟨computedT0 defSpeed e0.2.2.2, rfl, ht0pos⟩,
    ⟨computedCapacity defCap e0.2.2.2, rfl, le_max_left _ _⟩,
    ⟨computedT0 defSpeed e0.2.2.2,
      e0.2.2.2.time.getD (computedT0 defSpeed e0.2.2.2), rfl, rfl, ?_⟩⟩
  cases htm : e0.2.2.2.time with
  | none => simp
  | some tm => simpa using htime e0 he0 tm htm

/-- A one-edge network whose supplied `travel_time` parses to `0`. -/
def attrZeroTTG : Graph ℚ := ⟨[1, 2], [(1, 2, 0, { travel_time := some 0 })]⟩

/-- Counterexample to C7 as stated: on `attrZeroTTG` the initialization
takes the supplied `travel_time = 0` over verbatim, so the resulting edge
has `t0 = 0`, violating the claimed `t0 > 0`. -/
theorem add_freeflow_invariants_counterexample :
    ((add_freeflow_time_and_capacity attrZeroTTG 40 900).edges.map
      fun e => e.2.2.2.t0) = [some 0] ∧ ¬ ((0 : ℚ) < 0) := by
  constructor
  · norm_num [add_freeflow_time_and_capacity, attrZeroTTG, computedT0]
  · norm_num

/-- A one-edge network with every optional attribute missing. -/
def attrBareG : Graph ℚ := ⟨[1, 2], [(1, 2, 0, {})]⟩

/-- Witness for the amended C7: on a network with all optional attributes
missing the hypotheses hold vacuously and the theorem applies. -/
theorem add_freeflow_initialization_invariants_witness :
    (∀ e ∈ attrBareG.edges, ∀ t, e.2.2.2.travel_time = some t → 0 < t) ∧
    (∀ e ∈ attrBareG.edges, ∀ l, e.2.2.2.len = some l → 0 < l) ∧
    (∀ e ∈ attrBareG.edges, ∀ tm, e.2.2.2.time = some tm →
      computedT0 40 e.2.2.2 ≤ tm) ∧
    (∀ e ∈ (add_freeflow_time_and_capacity attrBareG 40 900).edges,
      (∃ τ, e.2.2.2.t0 = some τ ∧ 0 < τ) ∧
      (∃ c, e.2.2.2.capacity = some c ∧ 50 ≤ c) ∧
      (∃ τ tm, e.2.2.2.t0 = some τ ∧ e.2.2.2.time = some tm ∧ τ ≤ tm)) :=
  ⟨by simp [attrBareG], by simp [attrBareG], by simp [attrBareG],
    add_freeflow_initialization_invariants attrBareG 40 900
      (by simp [attrBareG]) (by simp [attrBareG]) (by simp [attrBareG])⟩

/-- Propositional form of the sort key comparison `(-score, a, b)`:
`CandBefore c d` says `c` sorts strictly before `d`. -/
def CandBefore (c d : CandRow) : Prop :=
  d.1 < c.1 ∨ (c.1 = d.1 ∧ (c.2.1 < d.2.1 ∨ (c.2.1 = d.2.1 ∧ c.2.2.1 < d.2.2.1)))

theorem candLT_iff (c d : CandRow) : candLT c d = true ↔ CandBefore c d := by
  rw [candLT, CandBefore]
  simp only [Bool.or_eq_true, Bool.and_eq_true, decide_eq_true_eq]

theorem candBefore_irrefl (c : CandRow) : ¬ CandBefore c c := by
  rw [CandBefore]
  push_neg
  exact ⟨le_refl _, fun _ => ⟨le_refl _, fun _ => le_refl _⟩⟩

theorem candBefore_trans {a b c : CandRow}
    (h1 : CandBefore a b) (h2 : CandBefore b c) : CandBefore a c := by
  rw [CandBefore] at h1 h2 ⊢
  rcases h1 with h1 | ⟨e1, h1⟩
  · rcases h2 with h2 | ⟨e2, h2⟩
    · exact Or.inl (lt_trans h2 h1)
    · exact Or.inl (e2 ▸ h1)
  · rcases h2 with h2 | ⟨e2, h2⟩
    · exact Or.inl (e1 ▸ h2)
    · refine Or.inr ⟨e1.trans e2, ?_⟩
      rcases h1 with h1 | ⟨f1, h1⟩
      · rcases h2 with h2 | ⟨f2, h2⟩
        · exact Or.inl (lt_trans h1 h2)
        · exact Or.inl (f2 ▸ h1)
      · rcases h2 with h2 | ⟨f2, h2⟩
        · exact Or.inl (f1 ▸ h2)
        · exact Or.inr ⟨f1.trans f2, lt_trans h1 h2⟩

/-- Key trichotomy: either one row sorts strictly before the other or the
compared key components coincide. -/
theorem candBefore_total (x c : CandRow) :
    CandBefore x c ∨ CandBefore c x ∨
      (x.1 = c.1 ∧ x.2.1 = c.2.1 ∧ x.2.2.1 = c.2.2.1) := by
  rw [CandBefore, CandBefore]
  rcases lt_trichotomy x.1 c.1 with h | h | h
  · exact Or.inr (Or.inl (Or.inl h))
  · rcases lt_trichotomy x.2.1 c.2.1 with h2 | h2 | h2
    · exact Or.inl (Or.inr ⟨h, Or.inl h2⟩)
    · rcases lt_trichotomy x.2.2.1 c.2.2.1 with h3 | h3 | h3
      · exact Or.inl (Or.inr ⟨h, Or.inr ⟨h2, h3⟩⟩)
      · exact Or.inr (Or.inr ⟨h, h2, h3⟩)
      · exact Or.inr (Or.inl (Or.inr ⟨h.symm, Or.inr ⟨h2.symm, h3⟩⟩))
    · exact Or.inr (Or.inl (Or.inr ⟨h.symm, Or.inl h2⟩))
  · exact Or.inl (Or.inl h)

theorem candBefore_congr {x c : CandRow}
    (he : x.1 = c.1 ∧ x.2.1 = c.2.1 ∧ x.2.2.1 = c.2.2.1) (r : CandRow) :
    CandBefore x r ↔ CandBefore c r := by
  rw [CandBefore, CandBefore, he.1, he.2.1, he.2.2]

/-- If `x` does not sort before `c` but sorts before `r`, then `c` sorts
before `r`. -/
theorem candBefore_of_not_of_before {x c r : CandRow}
    (hnb : ¬ CandBefore x c) (hxr : CandBefore x r) : CandBefore c r := by
  rcases candBefore_total x c with h | h | h
  · exact absurd h hnb
  · exact candBefore_trans h hxr
  · exact (candBefore_congr h r).mp hxr

theorem pickBest_mem (c : CandRow) (cs : List CandRow) :
    pickBest c cs ∈ c :: cs := by
  induction cs generalizing c with
  | nil => simp [pickBest]
  | cons x cs ih =>
    rw [pickBest, List.foldl_cons]
    by_cases h : candLT x c = true
    · rw [if_pos h]
      have hmem := ih x
      rw [pickBest] at hmem
      rcases List.mem_cons.mp hmem with h1 | h1
      · rw [h1]
        exact List.mem_cons_of_mem _ (List.mem_cons_self _ _)
      · exact List.mem_cons_of_mem _ (List.mem_cons_of_mem _ h1)
    · rw [if_neg h]
      have hmem := ih c
      rw [pickBest] at hmem
      rcases List.mem_cons.mp hmem with h1 | h1
      · rw [h1]
        exact List.mem_cons_self _ _
      · exact List.mem_cons_of_mem _ (List.mem_cons_of_mem _ h1)

theorem pickBest_min (c : CandRow) (cs : List CandRow) :
    ∀ y ∈ c :: cs, ¬ CandBefore y (pickBest c cs) := by
  induction cs generalizing c with
  | nil =>
    intro y hy
    rw [List.mem_singleton] at hy
    rw [hy, pickBest, List.foldl_nil]
    exact candBefore_irrefl c
  | cons x cs ih =>
    intro y hy
    rw [pickBest, List.foldl_cons]
    by_cases h : candLT x c = true
    · rw [if_pos h]
      have hrec := ih x
      rw [pickBest] at hrec
      rcases List.mem_cons.mp hy with hyc | hy2
      · intro hcontra
        have hxc : CandBefore x c := (candLT_iff x c).mp h
        have hxr : CandBefore x (List.foldl
            (fun best z => if candLT z best then z else best) x cs) := by
          rw [hyc] at hcontra
          exact candBefore_trans hxc hcontra
        exact hrec x (List.mem_cons_self _ _) hxr
      · rcases List.mem_cons.mp hy2 with hyx | hy3
        · exact hyx ▸ hrec x (List.mem_cons_self _ _)
        · exact hrec y (List.mem_cons_of_mem _ hy3)
    · rw [if_neg h]
      have hrec := ih c
      rw [pickBest] at hrec
      rcases List.mem_cons.mp hy with hyc | hy2
      · exact hyc ▸ hrec c (List.mem_cons_self _ _)
      · rcases List.mem_cons.mp hy2 with hyx | hy3
        · intro hcontra
          have hnb : ¬ CandBefore x c := fun hb => h ((candLT_iff x c).mpr hb)
          rw [hyx] at hcontra
          exact hrec c (List.mem_cons_self _ _)
            (candBefore_of_not_of_before hnb hcontra)
        · exact hrec y (List.mem_cons_of_mem _ hy3)

theorem candLoopInner_eq (G : Graph ℚ) (coords : List (ℕ × ℚ × ℚ))
    (hav : ℚ × ℚ → ℚ × ℚ → ℚ) (maxStraight : ℚ) (maxPairs : ℕ) (a : ℕ) :
    ∀ (bs : List ℕ) (acc : List CandRow), acc.length < maxPairs →
      candLoopInner G coords hav maxStraight maxPairs a bs acc acc.length =
        ((acc ++ bs.filterMap (candidateAt G coords hav maxStraight a)).take
            maxPairs,
          ((acc ++ bs.filterMap (candidateAt G coords hav maxStraight a)).take
            maxPairs).length,
          decide (maxPairs ≤
            (acc ++ bs.filterMap (candidateAt G coords hav maxStraight a)).length)) := by
  intro bs
  induction bs with
  | nil =>
    intro acc hacc
    have h1 : acc.take maxPairs = acc := List.take_of_length_le (le_of_lt hacc)
    simp [candLoopInner, h1, Nat.not_le.mpr hacc]
  | cons b bs ih =>
    intro acc hacc
    cases hc : candidateAt G coords hav maxStraight a b with
    | none => simp [candLoopInner, hc, ih acc hacc]
    | some c =>
      by_cases hbr : maxPairs ≤ acc.length + 1
      · have hmp : maxPairs = acc.length + 1 := le_antisymm hbr (by omega)
        have htake : (acc ++ c :: bs.filterMap
            (candidateAt G coords hav maxStraight a)).take maxPairs =
            acc ++ [c] := by
          rw [hmp, List.take_append_eq_append_take,
            List.take_of_length_le (by omega : acc.length ≤ acc.length + 1),
            show acc.length + 1 - acc.length = 1 by omega]
          simp
        simp only [candLoopInner, hc, if_pos hbr, List.filterMap_cons]
        rw [htake]
        refine Prod.ext ?_ (Prod.ext ?_ ?_)
        · rfl
        · simp
        · simp only [List.length_append, List.length_cons]
          have h2 : maxPairs ≤ acc.length + ((bs.filterMap
              (candidateAt G coords hav maxStraight a)).length + 1) := by
            omega
          simp [h2]
      · have hlt : (acc ++ [c]).length < maxPairs := by
          simp only [List.length_append, List.length_cons, List.length_nil]
          omega
        have hrec := ih (acc ++ [c]) hlt
        have hlen : (acc ++ [c]).length = acc.length + 1 := by simp
        simp only [candLoopInner, hc, if_neg hbr, List.filterMap_cons]
        rw [← hlen, hrec, ← List.append_cons]

theorem candLoopOuter_eq (G : Graph ℚ) (coords : List (ℕ × ℚ × ℚ))
    (hav : ℚ × ℚ → ℚ × ℚ → ℚ) (maxStraight : ℚ) (maxPairs : ℕ) (Nv : List ℕ) :
    ∀ (ras : List ℕ) (acc : List CandRow), acc.length < maxPairs →
      candLoopOuter G coords hav maxStraight maxPairs Nv ras acc acc.length =
        (acc ++ ras.flatMap fun a =>
          Nv.filterMap (candidateAt G coords hav maxStraight a)).take maxPairs := by
  intro ras
  induction ras with
  | nil =>
    intro acc hacc
    simp [candLoopOuter, List.take_of_length_le (le_of_lt hacc)]
  | cons a ras ih =>
    intro acc hacc
    rw [candLoopOuter, candLoopInner_eq G coords hav maxStraight maxPairs a Nv acc hacc]
    show (if maxPairs ≤ ((acc ++ Nv.filterMap
          (candidateAt G coords hav maxStraight a)).take maxPairs).length
        then (acc ++ Nv.filterMap
          (candidateAt G coords hav maxStraight a)).take maxPairs
        else candLoopOuter G coords hav maxStraight maxPairs Nv ras
          ((acc ++ Nv.filterMap (candidateAt G coords hav maxStraight a)).take
            maxPairs)
          (((acc ++ Nv.filterMap (candidateAt G coords hav maxStraight a)).take
            maxPairs).length)) = _
    by_cases hbig : maxPairs ≤
        (acc ++ Nv.filterMap (candidateAt G coords hav maxStraight a)).length
    · have hlen : ((acc ++ Nv.filterMap
          (candidateAt G coords hav maxStraight a)).take maxPairs).length =
          maxPairs := by
        rw [List.length_take]
        omega
      rw [if_pos (le_of_eq hlen.symm), List.flatMap_cons, ← List.append_assoc,
        List.take_append_of_le_length hbig]
    · have hlen2 : (acc ++ Nv.filterMap
          (candidateAt G coords hav maxStraight a)).take maxPairs =
          acc ++ Nv.filterMap (candidateAt G coords hav maxStraight a) :=
        List.take_of_length_le (by omega)
      rw [hlen2, if_neg (by omega), ih _ (by omega), List.flatMap_cons,
        ← List.append_assoc]

/-- The candidate loop of `propose_connector_near_edge` collects exactly
the first `max_pairs` candidates of the full enumeration (for a positive
`max_pairs`; the counter `checked` counts appended candidates). -/
theorem candLoop_eq_take (G : Graph ℚ) (coords : List (ℕ × ℚ × ℚ))
    (hav : ℚ × ℚ → ℚ × ℚ → ℚ) (maxStraight : ℚ) (maxPairs : ℕ)
    (Nu Nv : List ℕ) (hmp : 1 ≤ maxPairs) :
    candLoopOuter G coords hav maxStraight maxPairs Nv Nu [] 0 =
      (candidatesAll G coords hav maxStraight Nu Nv).take maxPairs := by
  have h := candLoopOuter_eq G coords hav maxStraight maxPairs Nv Nu []
    (by simpa using hmp)
  simpa [candidatesAll] using h

theorem candLoopInner_of_empty (G : Graph ℚ) (coords : List (ℕ × ℚ × ℚ))
    (hav : ℚ × ℚ → ℚ × ℚ → ℚ) (maxStraight : ℚ) (maxPairs : ℕ) (a : ℕ) :
    ∀ (bs : List ℕ) (acc : List CandRow) (checked : ℕ),
      bs.filterMap (candidateAt G coords hav maxStraight a) = [] →
      candLoopInner G coords hav maxStraight maxPairs a bs acc checked =
        (acc, checked, false) := by
  intro bs
  induction bs with
  | nil => intro acc checked _; rfl
  | cons b bs ih =>
    intro acc checked h
    have hb : candidateAt G coords hav maxStraight a b = none := by
      cases hcb : candidateAt G coords hav maxStraight a b with
      | none => rfl
      | some c => rw [List.filterMap_cons, hcb] at h; simp at h
    rw [List.filterMap_cons, hb] at h
    simp only [candLoopInner, hb]
    exact ih acc checked h

theorem candLoopOuter_of_empty (G : Graph ℚ) (coords : List (ℕ × ℚ × ℚ))
    (hav : ℚ × ℚ → ℚ × ℚ → ℚ) (maxStraight : ℚ) (maxPairs : ℕ) (Nv : List ℕ) :
    ∀ (ras : List ℕ) (acc : List CandRow) (checked : ℕ),
      (∀ a ∈ ras, Nv.filterMap (candidateAt G coords hav maxStraight a) = []) →
      candLoopOuter G coords hav maxStraight maxPairs Nv ras acc checked =
        acc := by
  intro ras
  induction ras with
  | nil => intro acc checked _; rfl
  | cons a ras ih =>
    intro acc checked h
    rw [candLoopOuter,
      candLoopInner_of_empty G coords hav maxStraight maxPairs a Nv acc checked
        (h a (List.mem_cons_self _ _))]
    show (if maxPairs ≤ checked then acc
      else candLoopOuter G coords hav maxStraight maxPairs Nv ras acc checked) =
      acc
    split
    · rfl
    · exact ih acc checked fun x hx => h x (List.mem_cons_of_mem _ hx)

/-- C9.  When no candidate pair survives the filters (the full enumeration
over the two k-hop neighborhoods is empty), `propose_connector_near_edge`
does not fail: it returns the degenerate fallback ConnectorSpec whose
endpoints are exactly the original bottleneck endpoints `(u, v)` and whose
length is their straight-line (haversine, modelled by `hav`) distance. -/
theorem propose_connector_fallback (G : Graph ℚ) (coords : List (ℕ × ℚ × ℚ))
    (hav : ℚ × ℚ → ℚ × ℚ → ℚ) (u v kHops : ℕ) (maxStraight : ℚ)
    (maxPairs : ℕ) (cu cv : ℚ × ℚ)
    (hcu : coordsFind coords u = some cu) (hcv : coordsFind coords v = some cv)
    (hempty : candidatesAll G coords hav maxStraight
      (kHopNeighborhood G coords kHops u)
      (kHopNeighborhood G coords kHops v) = []) :
    propose_connector_near_edge G coords hav u v kHops maxStraight maxPairs =
      .ok { a := u, b := v, length_m := hav cu cv } := by
  have hall : ∀ a ∈ kHopNeighborhood G coords kHops u,
      (kHopNeighborhood G coords kHops v).filterMap
        (candidateAt G coords hav maxStraight a) = [] := by
    intro a ha
    rw [candidatesAll] at hempty
    exact List.flatMap_eq_nil_iff.mp hempty a ha
  simp only [propose_connector_near_edge]
  rw [candLoopOuter_of_empty G coords hav maxStraight maxPairs _ _ _ _ hall]
  simp [hcu, hcv]

/-- C8 (amended).  When at least one candidate pair exists,
`propose_connector_near_edge` returns the candidate with the best sort key
`(-score, a, b)` — i.e. maximal score
`network_detour_time / max(10, straight_m)` with ties broken by lowest `a`
then lowest `b` — among the first `max_pairs` candidates of the
enumeration (`a` ascending, then `b` ascending); the enumeration stops
after `max_pairs` appended candidates, so when at most `max_pairs`
candidates exist this is the global maximizer claimed.  (As stated —
maximizing over all candidates regardless of the cap — the claim fails;
see the counterexample.) -/
theorem propose_connector_argmax (G : Graph ℚ) (coords : List (ℕ × ℚ × ℚ))
    (hav : ℚ × ℚ → ℚ × ℚ → ℚ) (u v kHops : ℕ) (maxStraight : ℚ)
    (maxPairs : ℕ) (hmp : 1 ≤ maxPairs)
    (hne : candidatesAll G coords hav maxStraight
      (kHopNeighborhood G coords kHops u)
      (kHopNeighborhood G coords kHops v) ≠ []) :
    ∃ c ∈ (candidatesAll G coords hav maxStraight
        (kHopNeighborhood G coords kHops u)
        (kHopNeighborhood G coords kHops v)).take maxPairs,
      propose_connector_near_edge G coords hav u v kHops maxStraight maxPairs =
        .ok { a := c.2.1, b := c.2.2.1, length_m := c.2.2.2 } ∧
      ∀ c' ∈ (candidatesAll G coords hav maxStraight
          (kHopNeighborhood G coords kHops u)
          (kHopNeighborhood G coords kHops v)).take maxPairs,
        ¬ CandBefore c' c := by
  simp only [propose_connector_near_edge]
  rw [candLoop_eq_take G coords hav maxStraight maxPairs _ _ hmp]
  cases hcap : (candidatesAll G coords hav maxStraight
      (kHopNeighborhood G coords kHops u)
      (kHopNeighborhood G coords kHops v)).take maxPairs with
  | nil =>
    exfalso
    rcases List.take_eq_nil_iff.mp hcap with h | h
    · omega
    · exact hne h
  | cons c0 cs =>
    refine ⟨pickBest c0 cs, ?_, rfl, ?_⟩
    · exact pickBest_mem c0 cs
    · exact pickBest_min c0 cs

/-- The distance function of a degenerate geometry in which every node
shares one coordinate (haversine distance `0`). -/
def havZero : ℚ × ℚ → ℚ × ℚ → ℚ := fun _ _ => 0

/-- Concrete network for the `max_pairs` cap: edges `0→1`, `0→9`, `9→2`,
`2→3` of free-flow time `1`; bottleneck `(0, 2)`. -/
def capG : Graph ℚ :=
  ⟨[0, 1, 2, 3, 9],
   [(0, 1, 0, { t0 := some 1 }), (0, 9, 0, { t0 := some 1 }),
    (9, 2, 0, { t0 := some 1 }), (2, 3, 0, { t0 := some 1 })]⟩

/-- Coordinates for `capG`: all nodes at the same point. -/
def capCoords : List (ℕ × ℚ × ℚ) :=
  [(0, 0, 0), (1, 0, 0), (2, 0, 0), (3, 0, 0), (9, 0, 0)]

set_option maxHeartbeats 2000000 in
theorem capG_candidates :
    candidatesAll capG capCoords havZero 300
        (kHopNeighborhood capG capCoords 1 0)
        (kHopNeighborhood capG capCoords 1 2) =
      [(1 / 5, 0, 2, 0), (3 / 10, 0, 3, 0), (1000, 1, 2, 0),
        (1000, 1, 3, 0), (1000, 1, 9, 0), (1 / 5, 9, 3, 0)] := by
  norm_num [candidatesAll, candidateAt, kHopNeighborhood, kHopExpand, capG,
    capCoords, havZero, Graph.hasEdge, Graph.minDistBy, Graph.simplePaths,
    Graph.simplePathsAux, Graph.outNeighbors, Graph.inNeighbors,
    Graph.pathWeight, Graph.minWeightBetween, Graph.edgesBetween,
    Graph.t0Weight, coordsFind, List.min?, List.dedup, List.filter,
    List.flatMap, List.filterMap, List.foldl, List.find?, List.any,
    List.insertionSort, List.orderedInsert]

set_option maxHeartbeats 2000000 in
/-- Counterexample to C8 as stated: with `max_pairs = 1` the enumeration
stops after its first surviving candidate.  On `capG` the full candidate
enumeration contains six rows; the one with the highest score (claimed
tie-break order) is `(1, 2)` with the disconnected-pair score
`10000 / 10 = 1000` — `pickBest` over the full list selects it — yet
`propose_connector_near_edge` returns the first-enumerated candidate
`(0, 2)`, whose score is only `1/5`. -/
theorem propose_connector_cap_counterexample :
    propose_connector_near_edge capG capCoords havZero 0 2 1 300 1 =
      .ok { a := 0, b := 2, length_m := 0 } ∧
    candidatesAll capG capCoords havZero 300
        (kHopNeighborhood capG capCoords 1 0)
        (kHopNeighborhood capG capCoords 1 2) =
      [(1 / 5, 0, 2, 0), (3 / 10, 0, 3, 0), (1000, 1, 2, 0),
        (1000, 1, 3, 0), (1000, 1, 9, 0), (1 / 5, 9, 3, 0)] ∧
    pickBest (1 / 5, 0, 2, 0) [(3 / 10, 0, 3, 0), (1000, 1, 2, 0),
        (1000, 1, 3, 0), (1000, 1, 9, 0), (1 / 5, 9, 3, 0)] =
      (1000, 1, 2, 0) := by
  refine ⟨?_, capG_candidates, ?_⟩
  · norm_num [propose_connector_near_edge, kHopNeighborhood, kHopExpand, capG,
      capCoords, havZero, Graph.outNeighbors, Graph.inNeighbors, coordsFind,
      candLoopOuter, candLoopInner, candidateAt, Graph.hasEdge, Graph.minDistBy,
      Graph.simplePaths, Graph.simplePathsAux, Graph.pathWeight,
      Graph.minWeightBetween, Graph.edgesBetween, Graph.t0Weight, pickBest,
      candLT, List.min?, List.dedup, List.filter, List.flatMap, List.filterMap,
      List.foldl, List.find?, List.any, List.insertionSort, List.orderedInsert]
  · norm_num [pickBest, candLT, List.foldl]

/-- Witness for the amended C8: on `capG` with the default-like
`max_pairs = 800` the hypotheses hold and the theorem applies. -/
theorem propose_connector_argmax_witness :
    (1 : ℕ) ≤ 800 ∧
    candidatesAll capG capCoords havZero 300
      (kHopNeighborhood capG capCoords 1 0)
      (kHopNeighborhood capG capCoords 1 2) ≠ [] ∧
    (∃ c ∈ (candidatesAll capG capCoords havZero 300
        (kHopNeighborhood capG capCoords 1 0)
        (kHopNeighborhood capG capCoords 1 2)).take 800,
      propose_connector_near_edge capG capCoords havZero 0 2 1 300 800 =
        .ok { a := c.2.1, b := c.2.2.1, length_m := c.2.2.2 } ∧
      ∀ c' ∈ (candidatesAll capG capCoords havZero 300
          (kHopNeighborhood capG capCoords 1 0)
          (kHopNeighborhood capG capCoords 1 2)).take 800,
        ¬ CandBefore c' c) := by
  have hne : candidatesAll capG capCoords havZero 300
      (kHopNeighborhood capG capCoords 1 0)
      (kHopNeighborhood capG capCoords 1 2) ≠ [] := by
    rw [capG_candidates]
    simp
  exact ⟨by norm_num, hne,
    propose_connector_argmax capG capCoords havZero 0 2 1 300 800
      (by norm_num) hne⟩

/-- Concrete fallback instance: nodes `1, 2` joined by an edge, so the only
cross pairs are already directly connected and no candidate survives. -/
def fbG : Graph ℚ := ⟨[1, 2], [(1, 2, 0, { t0 := some 1 })]⟩

/-- Coordinates for `fbG`. -/
def fbCoords : List (ℕ × ℚ × ℚ) := [(1, 0, 0), (2, 3, 4)]

/-- The distance function returning `7` for every pair (stands for the
haversine distance of the two `fbCoords` points). -/
def havSeven : ℚ × ℚ → ℚ × ℚ → ℚ := fun _ _ => 7

set_option maxHeartbeats 1000000 in
/-- Witness for C9: on `fbG` no candidate survives, both endpoints have
coordinates, and the theorem applies: the fallback ConnectorSpec is
`(1, 2)` with their straight-line distance as length. -/
theorem propose_connector_fallback_witness :
    coordsFind fbCoords 1 = some (0, 0) ∧
    coordsFind fbCoords 2 = some (3, 4) ∧
    candidatesAll fbG fbCoords havSeven 300
      (kHopNeighborhood fbG fbCoords 3 1)
      (kHopNeighborhood fbG fbCoords 3 2) = [] ∧
    propose_connector_near_edge fbG fbCoords havSeven 1 2 3 300 800 =
      .ok { a := 1, b := 2, length_m := havSeven (0, 0) (3, 4) } := by
  have h1 : coordsFind fbCoords 1 = some (0, 0) := by
    norm_num [coordsFind, fbCoords, List.find?]
  have h2 : coordsFind fbCoords 2 = some (3, 4) := by
    norm_num [coordsFind, fbCoords, List.find?]
  have hempty : candidatesAll fbG fbCoords havSeven 300
      (kHopNeighborhood fbG fbCoords 3 1)
      (kHopNeighborhood fbG fbCoords 3 2) = [] := by
    norm_num [candidatesAll, candidateAt, kHopNeighborhood, kHopExpand, fbG,
      fbCoords, havSeven, Graph.outNeighbors, Graph.inNeighbors, coordsFind,
      Graph.hasEdge, List.dedup, List.filter, List.flatMap, List.filterMap,
      List.find?, List.any, List.insertionSort, List.orderedInsert]
  exact ⟨h1, h2, hempty,
    propose_connector_fallback fbG fbCoords havSeven 1 2 3 300 800 (0, 0) (3, 4)
      h1 h2 hempty⟩

/-- C10.  `apply_connector` appends an `a → b` edge whose attributes are
`connectorAttrs spec`: flow `0`, `time` equal to its `t0`, `t0` equal to
`length_m` divided by the spec's speed converted to metres per second and
floored at `1.0 m/s`, and capacity the fixed constant `900` times the
spec's lane count (no configured capacity default is consulted); when
`two_way` holds and the spec is not one-way it also appends the reverse
`b → a` edge with the identical attribute record. -/
theorem apply_connector_adds_connector_edges (G : Graph ℚ)
    (spec : ConnectorSpec) (two_way : Bool) :
    (apply_connector G spec two_way).edges =
      (G.edges ++
        [(spec.a, spec.b, G.freshKey spec.a spec.b, connectorAttrs spec)]) ++
      (if two_way && !spec.oneway then
        [(spec.b, spec.a,
          (G.addEdge spec.a spec.b (connectorAttrs spec)).freshKey spec.b
            spec.a,
          connectorAttrs spec)]
       else []) ∧
    (connectorAttrs spec).flow = some 0 ∧
    (connectorAttrs spec).time = (connectorAttrs spec).t0 ∧
    (connectorAttrs spec).t0 =
      some (spec.length_m / max 1 (spec.speed_kph * 1000 / 3600)) ∧
    (connectorAttrs spec).capacity = some (900 * spec.lanes) := by
  refine ⟨?_, rfl, rfl, rfl, rfl⟩
  rw [apply_connector]
  by_cases h : (two_way && !spec.oneway) = true
  · rw [if_pos h, if_pos h]
    rfl
  · rw [if_neg h, if_neg h, List.append_nil]
    rfl
